import Mathlib

/-!
Shallow embedding of the core of the `mint` repository: the word wrapper and
scrollback view from `src/ui/term/text.rs`, and the damage-tracked terminal
buffer from `src/termui.rs`.  Rust `String`s are modelled as `List Char`
(Rust `char` = Unicode scalar value = Lean `Char`); `String::len` (a byte
count) is modelled by `byteLen` below.  Byte indices produced by
`char_indices` are modelled by char positions: the code only ever slices at
recorded `char_indices` offsets, and the map from char position to byte
offset is strictly monotone, so slicing at the recorded byte offsets equals
slicing at the corresponding char positions.  `usize` subtraction that can
underflow (a Rust arithmetic-overflow error) is modelled by a checked
subtraction returning `none` (the panic case).
-/

/-- UTF-8 encoded size in bytes of one Unicode scalar value. -/
def utf8Len (c : Char) : Nat :=
  if c.toNat < 0x80 then 1
  else if c.toNat < 0x800 then 2
  else if c.toNat < 0x10000 then 3
  else 4

/-- Rust `String::len`: the length in UTF-8 bytes. -/
def byteLen (t : List Char) : Nat := (t.map utf8Len).sum

/-- Rust `char::is_whitespace`: the Unicode `White_Space` property. -/
def rustIsWhitespace (c : Char) : Bool :=
  c.toNat = 0x09 || c.toNat = 0x0A || c.toNat = 0x0B || c.toNat = 0x0C ||
  c.toNat = 0x0D || c.toNat = 0x20 || c.toNat = 0x85 || c.toNat = 0xA0 ||
  c.toNat = 0x1680 || (0x2000 ≤ c.toNat && c.toNat ≤ 0x200A) ||
  c.toNat = 0x2028 || c.toNat = 0x2029 || c.toNat = 0x202F ||
  c.toNat = 0x205F || c.toNat = 0x3000

/-- Rust `str::trim_start`: drop leading Unicode whitespace. -/
def trimStart (t : List Char) : List Char := t.dropWhile rustIsWhitespace

/-- One step bound for the `while text.len() > width` pop loop of
`force_width`; the fuel `t.length` always suffices because every pop
removes exactly one trailing char. -/
def popAux : Nat → List Char → Nat → List Char
  | 0, t, _ => t
  | n + 1, t, w => if byteLen t ≤ w then t else popAux n t.dropLast w

/-- `force_width` from `src/ui/term/text.rs`: pop trailing chars while the
byte length exceeds `width`, then pad with spaces while it is below
`width`.  Note that, as in the source, the measure is `String::len`,
i.e. bytes, not chars. -/
def force_width (t : List Char) (w : Nat) : List Char :=
  let p := popAux t.length t w
  p ++ List.replicate (w - byteLen p) ' '

/-- `FmtOpts` from `src/ui/term/text.rs`. -/
structure FmtOpts where
  w : Nat
  i : Int
deriving DecidableEq, Repr

/-- `ScreenLine` from `src/ui/term/text.rs`. -/
structure ScreenLine where
  text : List Char
  for_opts : FmtOpts
deriving DecidableEq, Repr

/-- The inner `while width_so_far - last_breakpoint > target_width` loop of
`format`.  The fuel passed at the call site is `widthSoFar - lastBp`, which
always suffices: each iteration strictly increases `last_breakpoint`
(whitespace branch: to `last_whitespace > last_breakpoint`; other branch: to
`width_so_far`), so the measure `widthSoFar - lastBp` strictly decreases,
and when it reaches zero the loop guard is false. -/
def breakAux (text : List Char) (opts : FmtOpts) (indentFirst indentRest : List Char)
    (target widthSoFar idx lastWs lastWsIdx : Nat) :
    Nat → Nat → Nat → List ScreenLine → Nat × Nat × List ScreenLine
  | 0, lastBp, lastBpIdx, result => (lastBp, lastBpIdx, result)
  | fuel + 1, lastBp, lastBpIdx, result =>
    if widthSoFar - lastBp > target then
      let pre := if lastBp = 0 then indentFirst else indentRest
      if lastWs > lastBp then
        let frag := trimStart ((text.drop lastBpIdx).take (lastWsIdx - lastBpIdx))
        let line := force_width (pre ++ frag) opts.w
        breakAux text opts indentFirst indentRest target widthSoFar idx lastWs lastWsIdx
          fuel lastWs lastWsIdx (result ++ [⟨line, opts⟩])
      else
        let frag := trimStart ((text.drop lastBpIdx).take (idx - lastBpIdx))
        let line := force_width (pre ++ frag) opts.w
        breakAux text opts indentFirst indentRest target widthSoFar idx lastWs lastWsIdx
          fuel widthSoFar idx (result ++ [⟨line, opts⟩])
    else (lastBp, lastBpIdx, result)

/-- The `for (idx, character) in text.char_indices()` scan of `format`.
Arguments after the indent widths: remaining characters, current char
position, `width_so_far`, `last_whitespace`, `last_whitespace_idx`,
`last_breakpoint`, `last_breakpoint_idx`, accumulated result. -/
def scanLoop (text : List Char) (opts : FmtOpts) (indentFirst indentRest : List Char)
    (iwFirst iwBody : Nat) :
    List Char → Nat → Nat → Nat → Nat → Nat → Nat → List ScreenLine →
    Nat × Nat × List ScreenLine
  | [], _, _, _, _, lastBp, lastBpIdx, result => (lastBp, lastBpIdx, result)
  | c :: rest, idx, widthSoFar0, lastWs0, lastWsIdx0, lastBp, lastBpIdx, result =>
    let widthSoFar := widthSoFar0 + 1
    let lastWs := if rustIsWhitespace c then widthSoFar else lastWs0
    let lastWsIdx := if rustIsWhitespace c then idx else lastWsIdx0
    let target := if lastBp = 0 then iwFirst else iwBody
    let r := breakAux text opts indentFirst indentRest target widthSoFar idx lastWs lastWsIdx
      (widthSoFar - lastBp) lastBp lastBpIdx result
    scanLoop text opts indentFirst indentRest iwFirst iwBody rest (idx + 1) widthSoFar
      lastWs lastWsIdx r.1 r.2.1 r.2.2

/-- Body of `format` after the indent strings and indent widths have been
computed. -/
def formatCore (text : List Char) (opts : FmtOpts) (indentFirst indentRest : List Char)
    (iwFirst iwBody : Nat) : List ScreenLine :=
  let s := scanLoop text opts indentFirst indentRest iwFirst iwBody text 0 0 0 0 0 0 []
  let lastBp := s.1
  let lastBpIdx := s.2.1
  let result := s.2.2
  let lastChunk := trimStart (text.drop lastBpIdx)
  let result :=
    if lastChunk.length > 0 then
      result ++ [⟨force_width ((if lastBp = 0 then indentFirst else indentRest) ++ lastChunk)
        opts.w, opts⟩]
    else result
  if result.length = 0 then [⟨[], opts⟩] else result

/-- `format` from `src/ui/term/text.rs`.  The `usize` subtractions
`view_width - indent` for the narrowed indent widths underflow (an
arithmetic-overflow error in Rust) whenever the indent magnitude exceeds
the view width; that panic case is modelled as `none`. -/
def format (text : List Char) (opts : FmtOpts) : Option (List ScreenLine) :=
  if opts.i < 0 then
    let m := opts.i.natAbs
    if opts.w < m then none
    else some (formatCore text opts (List.replicate m ' ') [] (opts.w - m) opts.w)
  else
    let m := opts.i.toNat
    if opts.w < m then none
    else some (formatCore text opts [] (List.replicate m ' ') opts.w (opts.w - m))

/-- `WrappedView` from `src/ui/term/text.rs`.  The `FnvHashMap` cache is
modelled as a function from history index to an optional entry. -/
structure WrappedView where
  h : Nat
  fmt : FmtOpts
  history : List (List Char)
  cache : Nat → Option (List ScreenLine)
  position : Nat × Nat

/-- `WrappedView::new`: note the hard-coded hanging indent `i = 4`. -/
def WrappedView.new (w h : Nat) : WrappedView :=
  { h := h, fmt := { w := w, i := 4 }, history := [], cache := fun _ => none,
    position := (0, 0) }

/-- `WrappedView::resize`: updates the height and the format width only. -/
def WrappedView.resize (v : WrappedView) (w h : Nat) : WrappedView :=
  { v with h := h, fmt := { v.fmt with w := w } }

/-- `WrappedView::push`: strip newline and carriage-return characters,
append, and auto-follow if the position was at the previous tail (or the
history was empty). -/
def WrappedView.push (v : WrappedView) (line : List Char) : WrappedView :=
  let line := line.filter (fun c => c != '\n' && c != '\r')
  let n := v.history.length
  let hist := v.history ++ [line]
  if n = 0 ∨ v.position.1 = n - 1 then
    { v with history := hist, position := (hist.length - 1, 0) }
  else
    { v with history := hist }

/-- `WrappedView::wrap`: cache lookup with lazy self-invalidation.  The
result `none` covers both the out-of-range lookup (Rust returns `None`)
and the panic cases inside (indexing `lines[0]` of an empty cached vector,
or an indent-width underflow inside `format`); in reachable states the
panic cases never occur. -/
def WrappedView.wrap (v : WrappedView) (line : Nat) :
    Option (List ScreenLine) × WrappedView :=
  match v.history[line]? with
  | none => (none, v)
  | some t =>
    let recompute : Option (List ScreenLine) × WrappedView :=
      match format t v.fmt with
      | none => (none, v)
      | some newLines =>
        (some newLines,
         { v with cache := fun j => if j = line then some newLines else v.cache j })
    match v.cache line with
    | some ls =>
      match ls.head? with
      | none => (none, v)
      | some l0 => if l0.for_opts = v.fmt then (some ls, v) else recompute
    | none => recompute

/-- The backwards walk of `render`'s iterator chain: visit history indices
`i-1, i-2, ..., 0`, but lazily — `take(lines_wanted)` stops pulling (and so
stops calling `wrap`) once enough rows are collected.  `acc` collects rows
bottom-to-top.  A `none` result models a panic (`expect` on an out-of-range
`wrap`, or a panic inside `wrap`). -/
def renderWalk : WrappedView → Nat → Nat → List (List Char) →
    Option (List (List Char)) × WrappedView
  | v, 0, _, acc => (some acc, v)
  | v, i + 1, hwant, acc =>
    if acc.length ≥ hwant then (some acc, v)
    else
      match v.wrap i with
      | (none, vn) => (none, vn)
      | (some ls, vn) => renderWalk vn i hwant (acc ++ ls.reverse.map ScreenLine.text)

/-- `WrappedView::render`: walk back from the anchor collecting rows
bottom-to-top, pad with all-space rows (the `chain`), truncate to the
viewport height (the `take`), and reverse into top-to-bottom order. -/
def WrappedView.render (v : WrappedView) : Option (List (List Char)) × WrappedView :=
  if v.history.length > 0 then
    match renderWalk v (v.position.1 + 1) v.h [] with
    | (none, vn) => (none, vn)
    | (some rows, vn) =>
      (some (((rows ++ List.replicate (v.h - rows.length) (List.replicate v.fmt.w ' ')).take
        v.h).reverse), vn)
  else (some (List.replicate v.h (List.replicate v.fmt.w ' ')), v)

/-- States of the scrollback view reachable through the public operations
`new`, `push`, `resize` and `render`. -/
inductive Reachable : WrappedView → Prop
  | new (w h : Nat) : Reachable (WrappedView.new w h)
  | push {v : WrappedView} (line : List Char) : Reachable v → Reachable (v.push line)
  | resize {v : WrappedView} (w h : Nat) : Reachable v → Reachable (v.resize w h)
  | render {v : WrappedView} : Reachable v → Reachable v.render.2

/-- `Point` from `src/termui.rs`.  Field order `y` then `x` gives the
row-major derived ordering the damage buffer relies on. -/
structure Point where
  y : Nat
  x : Nat
deriving DecidableEq, Repr

/-- The derived lexicographic strict order on `Point` (row first). -/
def ptLt (a b : Point) : Bool :=
  a.y < b.y || (a.y = b.y && a.x < b.x)

/-- `BTreeSet::insert` on the sorted, duplicate-free list that models the
set's in-order iteration. -/
def insertPt (p : Point) : List Point → List Point
  | [] => [p]
  | q :: rest =>
    if ptLt p q then p :: q :: rest
    else if p = q then q :: rest
    else q :: insertPt p rest

/-- `DamageBuffer` from `src/termui.rs`.  Cells hold single-char strings in
the source (every stored value is `c.to_string()` or `" "`), so they are
modelled as `Char`. -/
structure DamageBuffer where
  points_to_draw : List Point
  redraw_all : Bool
  clear_all : Bool
  w : Nat
  h : Nat
  buffer : List Char
deriving DecidableEq, Repr

/-- `DamageBuffer::new`. -/
def DamageBuffer.new (w h : Nat) : DamageBuffer :=
  { points_to_draw := [], redraw_all := false, clear_all := false,
    w := w, h := h, buffer := List.replicate (w * h) ' ' }

/-- `DamageBuffer::clear`. -/
def DamageBuffer.clear (b : DamageBuffer) : DamageBuffer :=
  { b with
    buffer := List.replicate (b.w * b.h) ' '
    points_to_draw := []
    redraw_all := false
    clear_all := true }

/-- `DamageBuffer::resize`: `Vec::resize` truncates to the new length or
extends with blank cells, retaining the existing prefix. -/
def DamageBuffer.resize (b : DamageBuffer) (w h : Nat) : DamageBuffer :=
  { b with
    w := w
    h := h
    buffer := b.buffer.take (w * h) ++ List.replicate (w * h - b.buffer.length) ' '
    redraw_all := true }

/-- The character loop of `DamageBuffer::write_string`.  In every reachable
buffer `buffer.length = w * h`, so the in-bounds index `y * w + x` is a
valid index and `getD` equals Rust's (panicking) indexing. -/
def writeChars (wd ht y : Nat) : List Char → Nat → List Char → List Point →
    List Char × List Point
  | [], _, buf, ptd => (buf, ptd)
  | c :: rest, x, buf, ptd =>
    if x < wd ∧ y < ht then
      let i := y * wd + x
      if buf.getD i ' ' ≠ c then
        writeChars wd ht y rest (x + 1) (buf.set i c) (insertPt ⟨y, x⟩ ptd)
      else
        writeChars wd ht y rest (x + 1) buf ptd
    else
      writeChars wd ht y rest (x + 1) buf ptd

/-- `DamageBuffer::write_string`. -/
def DamageBuffer.write_string (b : DamageBuffer) (loc : Point) (s : List Char) :
    DamageBuffer :=
  let r := writeChars b.w b.h loc.y s loc.x b.buffer b.points_to_draw
  { b with buffer := r.1, points_to_draw := r.2 }

/-- Terminal output operations emitted by `DamageBuffer::redraw`:
`termion::cursor::Goto` (with its `u16` arguments), one glyph, or
`termion::clear::All`. -/
inductive Out where
  | goto (x y : Nat)
  | emit (c : Char)
  | clearScreen
deriving DecidableEq, Repr

/-- The per-cell walk shared by both branches of `redraw`: emit a `Goto`
only when the cell is not immediately contiguous with the previously
emitted cell, then emit the cell's glyph. -/
def drawCells (wd : Nat) (buf : List Char) : List Point → Point → List Out
  | [], _ => []
  | p :: rest, last =>
    (if p.y ≠ last.y ∨ (p.x : Int) - (last.x : Int) ≠ 1 then
      [Out.goto ((p.x + 1) % 65536) ((p.y + 1) % 65536)]
    else []) ++ Out.emit (buf.getD (p.y * wd + p.x) ' ') :: drawCells wd buf rest p

/-- All grid cells in row-major order, as visited by the `redraw_all`
branch of `redraw`. -/
def allPoints (w h : Nat) : List Point :=
  ((List.range h).map (fun y => (List.range w).map (fun x => Point.mk y x))).flatten

/-- `DamageBuffer::redraw` (the `flush`): returns the emitted output
sequence together with the updated buffer state. -/
def DamageBuffer.redraw (b : DamageBuffer) : List Out × DamageBuffer :=
  let outs :=
    Out.goto 1 1 ::
    (if b.clear_all then [Out.clearScreen] else []) ++
    (if b.redraw_all then drawCells b.w b.buffer (allPoints b.w b.h) ⟨0, 0⟩
     else drawCells b.w b.buffer b.points_to_draw ⟨0, 0⟩)
  (outs, { b with points_to_draw := [], redraw_all := false, clear_all := false })

/-- The glyph emissions among a sequence of outputs (the drawing
instructions proper, as opposed to cursor positioning). -/
def emittedGlyphs (outs : List Out) : List Char :=
  outs.filterMap (fun o => match o with | Out.emit c => some c | _ => none)

/-- A fragment with no leading whitespace, as produced by `trim_start`. -/
def noLeadWs (t : List Char) : Prop :=
  ∀ c, t.head? = some c → rustIsWhitespace c = false

/-- A screen line as built by `format`: an indent prefix, a trimmed
fragment, and `force_width` to the view width. -/
def builtLine (pre : List Char) (w : Nat) (opts : FmtOpts) (l : ScreenLine) : Prop :=
  ∃ t, noLeadWs t ∧ l = ⟨force_width (pre ++ t) w, opts⟩

/-- Invariant tying `last_breakpoint` to the accumulated result inside
`format`: no line has been pushed exactly while `last_breakpoint` is still
`0`, the first pushed line carries the first-line indent and every later
one the rest indent. -/
def shapeInv (iF iR : List Char) (opts : FmtOpts) (bp bpIdx : Nat)
    (result : List ScreenLine) : Prop :=
  (bp = 0 → bpIdx = 0 ∧ result = []) ∧
  (bp ≠ 0 → ∃ hd tl, result = hd :: tl ∧ builtLine iF opts.w opts hd ∧
    ∀ l ∈ tl, builtLine iR opts.w opts l)

/-- Invariant of the wrap cache: every stored entry is the `format` of the
history line at its index, under the options stored in the entry itself. -/
def CacheInv (v : WrappedView) : Prop :=
  ∀ i ls, v.cache i = some ls →
    ∃ t o, v.history[i]? = some t ∧ format t o = some ls

/-- Claim C1 (code-bug evidence): `wrap` violates the exact-width
guarantee.  The empty line at width 10 yields one ScreenLine whose text is
empty (the degenerate branch of `format` pushes `""` without applying
`force_width`), and the two-scalar line `"éé"` at width 3 yields a text of
2 scalar values because `force_width` measures UTF-8 bytes, not scalar
values. -/
theorem format_width_violation :
    format [] ⟨10, 0⟩ = some [⟨[], ⟨10, 0⟩⟩] ∧ ([] : List Char).length ≠ 10 ∧
    format ['é', 'é'] ⟨3, 0⟩ = some [⟨['é', ' '], ⟨3, 0⟩⟩] ∧
    (['é', ' '] : List Char).length ≠ 3 :=
  ⟨by decide, by decide, by decide, by decide⟩

/-- Claim C3 (code-bug evidence): `wrap("", {w:10, indent:0})` does not
return one ScreenLine of 10 spaces; the degenerate branch of `format`
returns a single ScreenLine whose text is the empty string. -/
theorem format_empty_not_blank_line :
    format [] ⟨10, 0⟩ = some [⟨[], ⟨10, 0⟩⟩] ∧
    ([] : List Char) ≠ List.replicate 10 ' ' :=
  ⟨by decide, by decide⟩

/-- Claim C2 (code-bug evidence): after `new(10,2)` and `push("")`,
`render()` returns two rows, the missing row padded with spaces at the top
as claimed, but the bottom row is the empty string (length 0), not 10
characters wide. -/
theorem render_width_violation :
    ((WrappedView.new 10 2).push []).render.1 =
      some [List.replicate 10 ' ', []] ∧
    ([] : List Char).length ≠ 10 :=
  ⟨by decide, by decide⟩

/-- Claim C5 (counterexample): with width 5 and indent −10 the `usize`
subtraction `view_width - indent` in `format` underflows — an arithmetic
overflow panic in Rust, modelled as `none` — so `wrap` is not total over
every signed indent. -/
theorem format_indent_underflow : format [] ⟨5, -10⟩ = none := by decide

/-- Claim C5 (amended): `format` is total — it terminates and produces a
result — whenever the indent magnitude does not exceed the width, for any
line and any such signed indent. -/
theorem format_total_of_indent_le_width (text : List Char) (opts : FmtOpts)
    (h : opts.i.natAbs ≤ opts.w) : (format text opts).isSome = true := by
  simp only [format]
  split
  · rw [if_neg (by omega)]
    rfl
  · rw [if_neg (by omega)]
    rfl

/-- Witness for `format_total_of_indent_le_width` at a concrete input. -/
theorem format_total_of_indent_le_width_witness :
    (format ['a'] ⟨5, -2⟩).isSome = true :=
  format_total_of_indent_le_width ['a'] ⟨5, -2⟩ (by decide)

/-- Claim C6 (counterexample): `DamageBuffer::resize` does not reallocate
the grid to blank cells — `Vec::resize` retains the existing prefix, so a
previously written glyph survives a resize to the same dimensions. -/
theorem resize_retains_glyphs :
    (((DamageBuffer.new 1 1).write_string ⟨0, 0⟩ ['X']).resize 1 1).buffer = ['X'] ∧
    ('X' : Char) ≠ ' ' :=
  ⟨by decide, by decide⟩

/-- The glyphs emitted by the per-cell walk of `redraw` are exactly the
visited cells' glyphs, in visit order. -/
theorem emittedGlyphs_drawCells (wd : Nat) (buf : List Char) (pts : List Point) :
    ∀ last, emittedGlyphs (drawCells wd buf pts last) =
      pts.map (fun p => buf.getD (p.y * wd + p.x) ' ') := by
  induction pts with
  | nil => intro _; rfl
  | cons p rest ih =>
    intro last
    unfold drawCells
    split <;> simp [emittedGlyphs, List.filterMap_append, ih] <;>
      simp [emittedGlyphs] at ih <;> exact ih p

/-- The row-major visit list covers exactly `h * w` cells. -/
theorem allPoints_length (w h : Nat) : (allPoints w h).length = h * w := by
  simp only [allPoints, List.length_flatten, List.map_map]
  have : (List.range h).map (List.length ∘ fun y => (List.range w).map (Point.mk y)) =
      List.replicate h w := by
    rw [List.eq_replicate_iff]
    constructor
    · simp
    · intro b hb
      simp only [List.mem_map] at hb
      obtain ⟨y, _, rfl⟩ := hb
      simp
  rw [this, List.sum_replicate, smul_eq_mul]

/-- The optional screen-clear instruction contributes no glyphs. -/
theorem emittedGlyphs_clear_prefix (c : Bool) (rest : List Out) :
    emittedGlyphs ((if c then [Out.clearScreen] else []) ++ rest) =
      emittedGlyphs rest := by
  cases c <;> simp [emittedGlyphs]

/-- Claim C6 (amended): `resize` adjusts the grid to the new dimensions —
truncating or extending with blank cells while retaining the existing
prefix — and sets `redrawAll`, so the next `flush` visits and redraws every
one of the `h * w` cells of the grid in row-major order, regardless of the
dirty set's prior contents. -/
theorem resize_forces_full_redraw (b : DamageBuffer) (w h : Nat) :
    (b.resize w h).buffer =
      b.buffer.take (w * h) ++ List.replicate (w * h - b.buffer.length) ' ' ∧
    (b.resize w h).redraw_all = true ∧
    (allPoints w h).length = h * w ∧
    emittedGlyphs ((b.resize w h).redraw.1) =
      (allPoints w h).map (fun p => (b.resize w h).buffer.getD (p.y * w + p.x) ' ') := by
  refine ⟨rfl, rfl, allPoints_length w h, ?_⟩
  have hdraw := emittedGlyphs_drawCells w
    (b.buffer.take (w * h) ++ List.replicate (w * h - b.buffer.length) ' ')
    (allPoints w h) ⟨0, 0⟩
  simp only [DamageBuffer.redraw, DamageBuffer.resize]
  simp only [emittedGlyphs, List.filterMap_cons, List.filterMap_append] at hdraw ⊢
  have hclear : List.filterMap
      (fun o => match o with | Out.emit c => some c | _ => none)
      (if b.clear_all = true then [Out.clearScreen] else []) = ([] : List Char) := by
    cases b.clear_all <;> rfl
  rw [hclear, List.nil_append]
  exact hdraw

/-- `BTreeSet::insert` makes the inserted point a member. -/
theorem insertPt_mem_self (p : Point) (l : List Point) : p ∈ insertPt p l := by
  induction l with
  | nil => simp [insertPt]
  | cons q rest ih =>
    simp only [insertPt]
    split
    · exact List.mem_cons_self _ _
    · split
      next h => rw [h]; exact List.mem_cons_self _ _
      · exact List.mem_cons_of_mem _ ih

/-- Claim C7: writing the glyph already present at a cell leaves the whole
buffer unchanged (so the cell stays out of the dirty set); writing a
different glyph updates the cell and adds it to the dirty set; after
`flush` the dirty set is empty and both flags are reset; and a `flush`
immediately following a `flush` emits no drawing (glyph) instructions. -/
theorem damage_write_flush (b : DamageBuffer) (y x : Nat) (c : Char)
    (hx : x < b.w) (hy : y < b.h) :
    (b.buffer.getD (y * b.w + x) ' ' = c → b.write_string ⟨y, x⟩ [c] = b) ∧
    (b.buffer.getD (y * b.w + x) ' ' ≠ c →
      (b.write_string ⟨y, x⟩ [c]).buffer = b.buffer.set (y * b.w + x) c ∧
      (⟨y, x⟩ : Point) ∈ (b.write_string ⟨y, x⟩ [c]).points_to_draw) ∧
    b.redraw.2.points_to_draw = [] ∧ b.redraw.2.redraw_all = false ∧
    b.redraw.2.clear_all = false ∧
    emittedGlyphs (b.redraw.2.redraw.1) = [] := by
  refine ⟨?_, ?_, rfl, rfl, rfl, rfl⟩
  · intro hsame
    simp only [DamageBuffer.write_string, writeChars, if_pos (And.intro hx hy),
      hsame, ne_eq, not_true_eq_false, if_neg, ite_false]
  · intro hdiff
    constructor
    · simp only [DamageBuffer.write_string, writeChars, if_pos (And.intro hx hy),
      if_pos hdiff]
    · simp only [DamageBuffer.write_string, writeChars, if_pos (And.intro hx hy),
      if_pos hdiff]
      exact insertPt_mem_self _ _

/-- Witness for `damage_write_flush` on a fresh 2 by 2 buffer. -/
theorem damage_write_flush_witness :
    ((DamageBuffer.new 2 2).write_string ⟨0, 0⟩ ['X']).buffer =
      (DamageBuffer.new 2 2).buffer.set (0 * 2 + 0) 'X' ∧
    (⟨0, 0⟩ : Point) ∈ ((DamageBuffer.new 2 2).write_string ⟨0, 0⟩ ['X']).points_to_draw ∧
    (DamageBuffer.new 2 2).redraw.2.points_to_draw = [] ∧
    (DamageBuffer.new 2 2).redraw.2.redraw_all = false ∧
    (DamageBuffer.new 2 2).redraw.2.clear_all = false ∧
    emittedGlyphs ((DamageBuffer.new 2 2).redraw.2.redraw.1) = [] := by
  have h := damage_write_flush (DamageBuffer.new 2 2) 0 0 'X' (by decide) (by decide)
  have hd := h.2.1 (by decide)
  exact ⟨hd.1, hd.2, h.2.2.1, h.2.2.2.1, h.2.2.2.2.1, h.2.2.2.2.2⟩

/-- Claim C8: `push` appends exactly one line, equal to the raw text with
all newline and carriage-return characters removed and the rest preserved
in order; previously stored lines are unchanged; and the scroll position
advances to the new last line with zero discard offset exactly when it
previously pointed at the last line or the history was empty, and is left
unchanged otherwise. -/
theorem push_spec (v : WrappedView) (raw : List Char) :
    (v.push raw).history =
      v.history ++ [raw.filter (fun c => c != '\n' && c != '\r')] ∧
    ((v.history.length = 0 ∨ v.position.1 = v.history.length - 1) →
      (v.push raw).position = (v.history.length, 0)) ∧
    (¬(v.history.length = 0 ∨ v.position.1 = v.history.length - 1) →
      (v.push raw).position = v.position) := by
  simp only [WrappedView.push]
  split
  next hcond =>
    refine ⟨rfl, fun _ => ?_, fun hn => absurd hcond hn⟩
    simp
  next hcond =>
    exact ⟨rfl, fun hc => absurd hc hcond, fun _ => rfl⟩

/-- Witness for `push_spec`: pushing a line containing a newline onto a
fresh view strips the newline and auto-follows to index 0. -/
theorem push_spec_witness :
    ((WrappedView.new 5 3).push ['a', '\n', 'b']).history = [['a', 'b']] ∧
    ((WrappedView.new 5 3).push ['a', '\n', 'b']).position = (0, 0) := by
  have h := push_spec (WrappedView.new 5 3) ['a', '\n', 'b']
  constructor
  · rw [h.1]; decide
  · exact h.2.1 (Or.inl (by decide))

/-- `wrap` neither reads nor writes the scroll position. -/
theorem wrap_set_position (v : WrappedView) (p : Nat × Nat) (i : Nat) :
    ({ v with position := p } : WrappedView).wrap i =
      ((v.wrap i).1, { (v.wrap i).2 with position := p }) := by
  obtain ⟨vh, vf, vhist, vc, vp⟩ := v
  cases hh : vhist[i]? with
  | none => simp only [WrappedView.wrap, hh]
  | some t =>
    cases hc : vc i with
    | none =>
      cases hf : format t vf with
      | none => simp only [WrappedView.wrap, hh, hc, hf]
      | some nl => simp only [WrappedView.wrap, hh, hc, hf]
    | some ls =>
      cases hl : ls.head? with
      | none => simp only [WrappedView.wrap, hh, hc, hl]
      | some l0 =>
        by_cases ho : l0.for_opts = vf
        · simp only [WrappedView.wrap, hh, hc, hl, if_pos ho]
        · cases hf : format t vf with
          | none => simp only [WrappedView.wrap, hh, hc, hl, if_neg ho, hf]
          | some nl => simp only [WrappedView.wrap, hh, hc, hl, if_neg ho, hf]

/-- The rows collected by the backward walk of `render` do not depend on
the scroll position stored in the state being walked. -/
theorem renderWalk_set_position (p : Nat × Nat) :
    ∀ (n : Nat) (v : WrappedView) (hwant : Nat) (acc : List (List Char)),
      renderWalk { v with position := p } n hwant acc =
        ((renderWalk v n hwant acc).1,
         { (renderWalk v n hwant acc).2 with position := p }) := by
  intro n
  induction n with
  | zero => intro v hwant acc; rfl
  | succ i ih =>
    intro v hwant acc
    by_cases hlen : acc.length ≥ hwant
    · simp only [renderWalk, if_pos hlen]
    · simp only [renderWalk, if_neg hlen]
      rw [wrap_set_position]
      rcases hw : v.wrap i with ⟨o, vn⟩
      cases o with
      | none => rfl
      | some ls => exact ih vn hwant (acc ++ ls.reverse.map ScreenLine.text)

/-- The rows returned by `render` depend only on the first component of
the scroll position: replacing the discard count by anything else gives
the same output. -/
theorem render_rows_discard_free (vh : Nat) (vf : FmtOpts) (vhist : List (List Char))
    (vc : Nat → Option (List ScreenLine)) (a d : Nat) :
    (WrappedView.mk vh vf vhist vc (a, d)).render.1 =
      (WrappedView.mk vh vf vhist vc (a, 0)).render.1 := by
  simp only [WrappedView.render]
  by_cases hl : vhist.length > 0
  · simp only [if_pos hl]
    have hset := renderWalk_set_position (a, d) (a + 1)
      (WrappedView.mk vh vf vhist vc (a, 0)) vh []
    have heq : ({ WrappedView.mk vh vf vhist vc (a, 0) with position := (a, d) } :
        WrappedView) = WrappedView.mk vh vf vhist vc (a, d) := rfl
    rw [heq] at hset
    rw [hset]
    rcases renderWalk (WrappedView.mk vh vf vhist vc (a, 0)) (a + 1) vh [] with ⟨o, vn⟩
    cases o with
    | none => rfl
    | some rows => rfl
  · simp only [if_neg hl]

/-- Claim C10: `render`'s output is independent of the second component of
the scroll position (the discarded-screen-lines count): two states equal
except in that count render the same sequence of rows. -/
theorem render_ignores_discard_offset (v : WrappedView) (d₁ d₂ : Nat) :
    ({ v with position := (v.position.1, d₁) } : WrappedView).render.1 =
      ({ v with position := (v.position.1, d₂) } : WrappedView).render.1 := by
  obtain ⟨vh, vf, vhist, vc, vp⟩ := v
  rw [show ({ WrappedView.mk vh vf vhist vc vp with position := ((WrappedView.mk vh vf vhist vc vp).position.1, d₁) } : WrappedView) = WrappedView.mk vh vf vhist vc (vp.1, d₁) from rfl]
  rw [show ({ WrappedView.mk vh vf vhist vc vp with position := ((WrappedView.mk vh vf vhist vc vp).position.1, d₂) } : WrappedView) = WrappedView.mk vh vf vhist vc (vp.1, d₂) from rfl]
  rw [render_rows_discard_free vh vf vhist vc vp.1 d₁,
    render_rows_discard_free vh vf vhist vc vp.1 d₂]

/-- Every line pushed by the break loop is tagged with the options being
formatted. -/
theorem breakAux_opts (text : List Char) (opts : FmtOpts) (iF iR : List Char)
    (target widthSoFar idx lastWs lastWsIdx : Nat) :
    ∀ (fuel bp bpIdx : Nat) (result : List ScreenLine),
      (∀ l ∈ result, l.for_opts = opts) →
      ∀ l ∈ (breakAux text opts iF iR target widthSoFar idx lastWs lastWsIdx
        fuel bp bpIdx result).2.2, l.for_opts = opts := by
  intro fuel
  induction fuel with
  | zero => intro bp bpIdx result hres l hl; exact hres l hl
  | succ n ih =>
    intro bp bpIdx result hres l hl
    simp only [breakAux] at hl
    split at hl
    · split at hl
      · refine ih _ _ _ (fun x hx => ?_) l hl
        rcases List.mem_append.mp hx with h1 | h2
        · exact hres x h1
        · simp only [List.mem_singleton] at h2
          rw [h2]
      · refine ih _ _ _ (fun x hx => ?_) l hl
        rcases List.mem_append.mp hx with h1 | h2
        · exact hres x h1
        · simp only [List.mem_singleton] at h2
          rw [h2]
    · exact hres l hl

/-- Every line accumulated by the scan loop is tagged with the options
being formatted. -/
theorem scanLoop_opts (text : List Char) (opts : FmtOpts) (iF iR : List Char)
    (iwF iwB : Nat) :
    ∀ (rest : List Char) (idx ws lw lwi bp bpi : Nat) (result : List ScreenLine),
      (∀ l ∈ result, l.for_opts = opts) →
      ∀ l ∈ (scanLoop text opts iF iR iwF iwB rest idx ws lw lwi bp bpi result).2.2,
        l.for_opts = opts := by
  intro rest
  induction rest with
  | nil => intro idx ws lw lwi bp bpi result hres l hl; exact hres l hl
  | cons c cs ih =>
    intro idx ws lw lwi bp bpi result hres l hl
    simp only [scanLoop] at hl
    exact ih _ _ _ _ _ _ _
      (breakAux_opts text opts iF iR _ _ _ _ _ _ _ _ _ hres) l hl

/-- `formatCore` is non-empty and tags every produced line with the
options it was computed under. -/
theorem formatCore_sound (t : List Char) (o : FmtOpts) (iF iR : List Char)
    (iwF iwB : Nat) :
    formatCore t o iF iR iwF iwB ≠ [] ∧
    ∀ l ∈ formatCore t o iF iR iwF iwB, l.for_opts = o := by
  simp only [formatCore]
  rcases hsc : scanLoop t o iF iR iwF iwB t 0 0 0 0 0 0 [] with ⟨bp, bpi, res0⟩
  have hres0 : ∀ l ∈ res0, l.for_opts = o := by
    have h0 := scanLoop_opts t o iF iR iwF iwB t 0 0 0 0 0 0 [] (by simp)
    rw [hsc] at h0
    exact h0
  by_cases hC : (trimStart (t.drop bpi)).length > 0
  · rw [if_pos hC]
    have hne : ¬((res0 ++ [(⟨force_width ((if bp = 0 then iF else iR) ++
        trimStart (t.drop bpi)) o.w, o⟩ : ScreenLine)]).length = 0) := by simp
    rw [if_neg hne]
    refine ⟨by simp, fun l hl => ?_⟩
    rcases List.mem_append.mp hl with h1 | h2
    · exact hres0 l h1
    · simp only [List.mem_singleton] at h2
      rw [h2]
  · rw [if_neg hC]
    by_cases hL : res0.length = 0
    · rw [if_pos hL]
      refine ⟨by simp, fun l hl => ?_⟩
      simp only [List.mem_singleton] at hl
      rw [hl]
    · rw [if_neg hL]
      refine ⟨fun hnil => hL ?_, hres0⟩
      have h2 : res0 = [] := hnil
      rw [h2]
      rfl

/-- A successful `format` is non-empty and tags every produced line with
the options it was computed under. -/
theorem format_sound (t : List Char) (o : FmtOpts) (r : List ScreenLine)
    (h : format t o = some r) : r ≠ [] ∧ ∀ l ∈ r, l.for_opts = o := by
  simp only [format] at h
  split at h
  · split at h
    · exact absurd h (by simp)
    · rw [← Option.some.inj h]
      exact formatCore_sound t o _ _ _ _
  · split at h
    · exact absurd h (by simp)
    · rw [← Option.some.inj h]
      exact formatCore_sound t o _ _ _ _

/-- A fresh view has an empty (hence invariant-satisfying) cache. -/
theorem cacheInv_new (w h : Nat) : CacheInv (WrappedView.new w h) := by
  intro i ls hc
  simp [WrappedView.new] at hc

/-- `push` preserves the cache invariant: the cache is untouched and the
history only grows at the end. -/
theorem cacheInv_push {v : WrappedView} (line : List Char) (h : CacheInv v) :
    CacheInv (v.push line) := by
  intro i ls hc
  have hc2 : v.cache i = some ls := by
    simp only [WrappedView.push] at hc
    split at hc <;> exact hc
  obtain ⟨t, o, hget, hfmt⟩ := h i ls hc2
  have hlen : i < v.history.length := (List.getElem?_eq_some.mp hget).1
  refine ⟨t, o, ?_, hfmt⟩
  simp only [WrappedView.push]
  split <;> simp [List.getElem?_append, hlen, hget]

/-- `resize` preserves the cache invariant: neither cache nor history is
touched. -/
theorem cacheInv_resize {v : WrappedView} (w h : Nat) (hv : CacheInv v) :
    CacheInv (v.resize w h) := by
  intro i ls hc
  exact hv i ls hc

/-- `wrap` preserves the cache invariant: the only entry it may store is a
fresh `format` of the history line at that index, under the live options. -/
theorem cacheInv_wrap {v : WrappedView} (i : Nat) (hv : CacheInv v) :
    CacheInv (v.wrap i).2 := by
  cases hh : v.history[i]? with
  | none => simp only [WrappedView.wrap, hh]; exact hv
  | some t =>
    have hins : ∀ nl, format t v.fmt = some nl →
        CacheInv { v with cache := fun j => if j = i then some nl else v.cache j } := by
      intro nl hf j ls hj
      simp only at hj
      by_cases hji : j = i
      · rw [if_pos hji] at hj
        subst hji
        exact ⟨t, v.fmt, hh, by rw [hf, Option.some.inj hj]⟩
      · rw [if_neg hji] at hj
        exact hv j ls hj
    cases hc : v.cache i with
    | none =>
      cases hf : format t v.fmt with
      | none => simp only [WrappedView.wrap, hh, hc, hf]; exact hv
      | some nl => simp only [WrappedView.wrap, hh, hc, hf]; exact hins nl hf
    | some ls0 =>
      cases hl : ls0.head? with
      | none => simp only [WrappedView.wrap, hh, hc, hl]; exact hv
      | some l0 =>
        by_cases ho : l0.for_opts = v.fmt
        · simp only [WrappedView.wrap, hh, hc, hl, if_pos ho]; exact hv
        · cases hf : format t v.fmt with
          | none => simp only [WrappedView.wrap, hh, hc, hl, if_neg ho, hf]; exact hv
          | some nl => simp only [WrappedView.wrap, hh, hc, hl, if_neg ho, hf]; exact hins nl hf

/-- The backward walk of `render` preserves the cache invariant. -/
theorem cacheInv_renderWalk :
    ∀ (n : Nat) (v : WrappedView) (hwant : Nat) (acc : List (List Char)),
      CacheInv v → CacheInv (renderWalk v n hwant acc).2 := by
  intro n
  induction n with
  | zero => intro v hwant acc hv; exact hv
  | succ i ih =>
    intro v hwant acc hv
    simp only [renderWalk]
    split
    · exact hv
    · have hw := cacheInv_wrap (v := v) i hv
      rcases hwp : v.wrap i with ⟨o, vn⟩
      rw [hwp] at hw
      cases o with
      | none => exact hw
      | some ls => exact ih vn hwant _ hw

/-- `render` preserves the cache invariant. -/
theorem cacheInv_render {v : WrappedView} (hv : CacheInv v) :
    CacheInv v.render.2 := by
  simp only [WrappedView.render]
  split
  · have hw := cacheInv_renderWalk (v.position.1 + 1) v v.h [] hv
    rcases hwp : renderWalk v (v.position.1 + 1) v.h [] with ⟨o, vn⟩
    rw [hwp] at hw
    cases o with
    | none => exact hw
    | some rows => exact hw
  · exact hv

/-- Every reachable view state satisfies the cache invariant. -/
theorem reachable_cacheInv {v : WrappedView} (h : Reachable v) : CacheInv v := by
  induction h with
  | new w h => exact cacheInv_new w h
  | push line _ ih => exact cacheInv_push line ih
  | resize w h _ ih => exact cacheInv_resize w h ih
  | render _ ih => exact cacheInv_render ih

/-- Claim C9: `resize` does not purge the cache, and after any sequence of
`push`/`resize`/`render` operations every ScreenLine list that the cache
lookup `wrap` successfully returns is exactly the wrap of that history
line computed with the cache's current FormatOptions — a stale entry is
recomputed on access, never returned. -/
theorem wrap_cache_consistency (v : WrappedView) (i : Nat) (ls : List ScreenLine) :
    (∀ w h, (v.resize w h).cache = v.cache) ∧
    (Reachable v → (v.wrap i).1 = some ls →
      ∃ t, v.history[i]? = some t ∧ format t v.fmt = some ls) := by
  refine ⟨fun w h => rfl, fun hr hw => ?_⟩
  have hinv := reachable_cacheInv hr
  cases hh : v.history[i]? with
  | none =>
    simp only [WrappedView.wrap, hh] at hw
    exact Option.noConfusion hw
  | some t =>
    cases hc : v.cache i with
    | none =>
      cases hf : format t v.fmt with
      | none =>
        simp only [WrappedView.wrap, hh, hc, hf] at hw
        exact Option.noConfusion hw
      | some nl =>
        simp only [WrappedView.wrap, hh, hc, hf, Option.some.injEq] at hw
        exact ⟨t, rfl, by rw [hf, hw]⟩
    | some ls0 =>
      obtain ⟨t0, o, hget0, hfmt0⟩ := hinv i ls0 hc
      rw [hh, Option.some.injEq] at hget0
      obtain ⟨hne, hall⟩ := format_sound t0 o ls0 hfmt0
      cases hls0 : ls0 with
      | nil => exact absurd hls0 hne
      | cons a as =>
        subst hls0
        by_cases ho : a.for_opts = v.fmt
        · simp only [WrappedView.wrap, hh, hc, List.head?_cons, if_pos ho,
            Option.some.injEq] at hw
          have hao : a.for_opts = o := hall a (List.mem_cons_self _ _)
          have hov : o = v.fmt := by rw [← hao, ho]
          refine ⟨t, rfl, ?_⟩
          rw [hget0, ← hov, hfmt0, hw]
        · cases hf : format t v.fmt with
          | none =>
            simp only [WrappedView.wrap, hh, hc, List.head?_cons, if_neg ho, hf] at hw
            exact Option.noConfusion hw
          | some nl =>
            simp only [WrappedView.wrap, hh, hc, List.head?_cons, if_neg ho, hf,
              Option.some.injEq] at hw
            exact ⟨t, rfl, by rw [hf, hw]⟩

/-- Witness for `wrap_cache_consistency`: a fresh view after one push,
looked up at index 0. -/
theorem wrap_cache_consistency_witness :
    ((((WrappedView.new 10 2).push ['h', 'i']).resize 7 3).cache =
      ((WrappedView.new 10 2).push ['h', 'i']).cache) ∧
    ∃ t, ((WrappedView.new 10 2).push ['h', 'i']).history[0]? = some t ∧
      format t ((WrappedView.new 10 2).push ['h', 'i']).fmt =
        some [⟨['h', 'i', ' ', ' ', ' ', ' ', ' ', ' ', ' ', ' '], ⟨10, 4⟩⟩] := by
  have h := wrap_cache_consistency ((WrappedView.new 10 2).push ['h', 'i']) 0
    [⟨['h', 'i', ' ', ' ', ' ', ' ', ' ', ' ', ' ', ' '], ⟨10, 4⟩⟩]
  exact ⟨h.1 7 3, h.2 (Reachable.push ['h', 'i'] (Reachable.new 10 2)) (by decide)⟩

/-- Every Unicode scalar value occupies at least one UTF-8 byte. -/
theorem utf8Len_pos (c : Char) : 0 < utf8Len c := by
  simp only [utf8Len]
  split
  · exact Nat.one_pos
  · split
    · exact Nat.zero_lt_two
    · split
      · exact Nat.zero_lt_succ 2
      · exact Nat.zero_lt_succ 3

/-- Byte length distributes over append. -/
theorem byteLen_append (a b : List Char) :
    byteLen (a ++ b) = byteLen a + byteLen b := by
  simp [byteLen]

/-- A run of spaces is one byte per space. -/
theorem byteLen_replicate_space (m : Nat) :
    byteLen (List.replicate m ' ') = m := by
  simp [byteLen, List.map_replicate, show utf8Len ' ' = 1 from by decide]

/-- Only the empty string has byte length zero. -/
theorem byteLen_eq_zero_iff (t : List Char) : byteLen t = 0 ↔ t = [] := by
  cases t with
  | nil => simp [byteLen]
  | cons c cs =>
    simp only [byteLen, List.map_cons, List.sum_cons]
    constructor
    · intro h
      have := utf8Len_pos c
      omega
    · intro h
      exact absurd h (by simp)

/-- The pop loop of `force_width` never leaves more than `w` bytes. -/
theorem popAux_byteLen_le :
    ∀ (n : Nat) (t : List Char) (w : Nat), t.length ≤ n →
      byteLen (popAux n t w) ≤ w := by
  intro n
  induction n with
  | zero =>
    intro t w hlen
    have ht : t = [] := List.eq_nil_of_length_eq_zero (Nat.le_zero.mp hlen)
    rw [ht]
    simp [popAux, byteLen]
  | succ k ih =>
    intro t w hlen
    simp only [popAux]
    split
    next h => exact h
    next h =>
      apply ih
      have htne : t ≠ [] := by
        intro hnil
        rw [hnil] at h
        exact h (by simp [byteLen])
      have : 1 ≤ t.length := List.length_pos.mpr htne
      rw [List.length_dropLast]
      omega

/-- The pop loop only removes trailing characters: its result is a `take`
of its input. -/
theorem popAux_take :
    ∀ (n : Nat) (t : List Char) (w : Nat), ∃ k, popAux n t w = t.take k := by
  intro n
  induction n with
  | zero =>
    intro t w
    exact ⟨t.length, (List.take_length t).symm⟩
  | succ m ih =>
    intro t w
    simp only [popAux]
    split
    · exact ⟨t.length, (List.take_length t).symm⟩
    · obtain ⟨k, hk⟩ := ih t.dropLast w
      refine ⟨min k (t.length - 1), ?_⟩
      rw [hk, List.dropLast_eq_take, List.take_take]

/-- The pop loop never eats into a leading segment that already fits in
the width: it returns that segment plus a remainder of the tail. -/
theorem popAux_spaces (s : List Char) (w : Nat) (hs : byteLen s ≤ w) :
    ∀ (n : Nat) (t : List Char), ∃ g, popAux n (s ++ t) w = s ++ g := by
  intro n
  induction n with
  | zero => intro t; exact ⟨t, rfl⟩
  | succ m ih =>
    intro t
    simp only [popAux]
    split
    · exact ⟨t, rfl⟩
    next h =>
      cases t with
      | nil =>
        rw [List.append_nil] at h
        exact absurd hs h
      | cons c cs =>
        obtain ⟨g, hg⟩ := ih (c :: cs).dropLast
        refine ⟨g, ?_⟩
        rw [List.dropLast_append_of_ne_nil _ (by simp), hg]

/-- A forced line is exactly `w` bytes long. -/
theorem force_width_byteLen (t : List Char) (w : Nat) :
    byteLen (force_width t w) = w := by
  have hle := popAux_byteLen_le t.length t w (le_refl _)
  simp only [force_width, byteLen_append, byteLen_replicate_space]
  omega

/-- Forcing a line that starts with `m ≤ w` spaces keeps those spaces as a
prefix. -/
theorem force_width_spaces_prefix (m w : Nat) (hmw : m ≤ w) (t : List Char) :
    ∃ g, force_width (List.replicate m ' ' ++ t) w = List.replicate m ' ' ++ g := by
  obtain ⟨g0, hg0⟩ := popAux_spaces (List.replicate m ' ') w
    (by rw [byteLen_replicate_space]; exact hmw) (List.replicate m ' ' ++ t).length t
  refine ⟨g0 ++ List.replicate (w - byteLen (List.replicate m ' ' ++ g0)) ' ', ?_⟩
  simp only [force_width, hg0, List.append_assoc]

/-- The first `m` characters of a line forced from an `m`-space indent are
exactly those spaces. -/
theorem force_width_take_spaces (m w : Nat) (hmw : m ≤ w) (t : List Char) :
    (force_width (List.replicate m ' ' ++ t) w).take m = List.replicate m ' ' := by
  obtain ⟨g, hg⟩ := force_width_spaces_prefix m w hmw t
  rw [hg, List.take_append_eq_append_take, List.take_replicate,
    List.length_replicate, Nat.min_self, Nat.sub_self, List.take_zero,
    List.append_nil]

/-- A forced line built from a fragment with no leading whitespace is
either all spaces or starts with a non-whitespace character. -/
theorem force_width_head (t : List Char) (w : Nat) (hnw : noLeadWs t) :
    force_width t w = List.replicate w ' ' ∨
    ∃ c cs, force_width t w = c :: cs ∧ rustIsWhitespace c = false := by
  obtain ⟨k, hk⟩ := popAux_take t.length t w
  simp only [force_width, hk]
  cases htk : t.take k with
  | nil =>
    left
    simp [byteLen]
  | cons c cs =>
    right
    refine ⟨c, cs ++ List.replicate (w - byteLen (c :: cs)) ' ', rfl, ?_⟩
    cases t with
    | nil => simp at htk
    | cons a as =>
      cases k with
      | zero => simp at htk
      | succ k2 =>
        simp only [List.take_succ_cons, List.cons.injEq] at htk
        rw [← htk.1]
        exact hnw a rfl

/-- `trim_start` leaves no leading whitespace. -/
theorem noLeadWs_trimStart (t : List Char) : noLeadWs (trimStart t) := by
  intro c hc
  have h := List.head?_dropWhile_not rustIsWhitespace t
  rw [trimStart] at hc
  rw [hc] at h
  exact h

/-- A line containing a non-whitespace character does not trim to
nothing. -/
theorem trimStart_ne_nil (t : List Char)
    (h : ∃ c ∈ t, rustIsWhitespace c = false) : trimStart t ≠ [] := by
  intro hnil
  obtain ⟨c, hc, hw⟩ := h
  rw [trimStart, List.dropWhile_eq_nil_iff] at hnil
  rw [hnil c hc] at hw
  exact Bool.noConfusion hw

/-- Pushing one line inside `format` preserves the shape invariant: the
indent prefix is chosen by whether `last_breakpoint` is still zero, and
the new breakpoint is non-zero. -/
theorem shapeInv_push (iF iR : List Char) (opts : FmtOpts) (bp bpIdx : Nat)
    (result : List ScreenLine) (hinv : shapeInv iF iR opts bp bpIdx result)
    (frag : List Char) (hfrag : noLeadWs frag) (bp2 bpIdx2 : Nat) (hbp2 : bp2 ≠ 0) :
    shapeInv iF iR opts bp2 bpIdx2
      (result ++ [⟨force_width ((if bp = 0 then iF else iR) ++ frag) opts.w, opts⟩]) := by
  refine ⟨fun h => absurd h hbp2, fun _ => ?_⟩
  by_cases hbp : bp = 0
  · have hres : result = [] := (hinv.1 hbp).2
    rw [hres, if_pos hbp]
    exact ⟨_, [], rfl, ⟨frag, hfrag, rfl⟩, by simp⟩
  · obtain ⟨hd, tl, hres, hhd, htl⟩ := hinv.2 hbp
    rw [hres, if_neg hbp]
    refine ⟨hd, tl ++ [⟨force_width (iR ++ frag) opts.w, opts⟩], by simp, hhd, ?_⟩
    intro l hl
    rcases List.mem_append.mp hl with h1 | h2
    · exact htl l h1
    · simp only [List.mem_singleton] at h2
      exact ⟨frag, hfrag, by rw [h2]⟩

/-- The break loop preserves the shape invariant. -/
theorem breakAux_shape (text : List Char) (opts : FmtOpts) (iF iR : List Char)
    (target widthSoFar idx lastWs lastWsIdx : Nat) :
    ∀ (fuel bp bpIdx : Nat) (result : List ScreenLine)
      (bp2 bpIdx2 : Nat) (result2 : List ScreenLine),
      shapeInv iF iR opts bp bpIdx result →
      breakAux text opts iF iR target widthSoFar idx lastWs lastWsIdx
        fuel bp bpIdx result = (bp2, bpIdx2, result2) →
      shapeInv iF iR opts bp2 bpIdx2 result2 := by
  intro fuel
  induction fuel with
  | zero =>
    intro bp bpIdx result bp2 bpIdx2 result2 hinv heq
    simp only [breakAux, Prod.mk.injEq] at heq
    obtain ⟨h1, h2, h3⟩ := heq
    rw [← h1, ← h2, ← h3]
    exact hinv
  | succ n ih =>
    intro bp bpIdx result bp2 bpIdx2 result2 hinv heq
    simp only [breakAux] at heq
    split at heq
    next hgt =>
      split at heq
      next hws =>
        exact ih lastWs lastWsIdx _ bp2 bpIdx2 result2
          (shapeInv_push iF iR opts bp bpIdx result hinv _
            (noLeadWs_trimStart _) lastWs lastWsIdx (by omega)) heq
      next hws =>
        exact ih widthSoFar idx _ bp2 bpIdx2 result2
          (shapeInv_push iF iR opts bp bpIdx result hinv _
            (noLeadWs_trimStart _) widthSoFar idx (by omega)) heq
    next hgt =>
      simp only [Prod.mk.injEq] at heq
      obtain ⟨h1, h2, h3⟩ := heq
      rw [← h1, ← h2, ← h3]
      exact hinv

/-- The character scan preserves the shape invariant. -/
theorem scanLoop_shape (text : List Char) (opts : FmtOpts) (iF iR : List Char)
    (iwF iwB : Nat) :
    ∀ (rest : List Char) (idx ws lw lwi bp bpi : Nat) (result : List ScreenLine)
      (bp2 bpi2 : Nat) (result2 : List ScreenLine),
      shapeInv iF iR opts bp bpi result →
      scanLoop text opts iF iR iwF iwB rest idx ws lw lwi bp bpi result =
        (bp2, bpi2, result2) →
      shapeInv iF iR opts bp2 bpi2 result2 := by
  intro rest
  induction rest with
  | nil =>
    intro idx ws lw lwi bp bpi result bp2 bpi2 result2 hinv heq
    simp only [scanLoop, Prod.mk.injEq] at heq
    obtain ⟨h1, h2, h3⟩ := heq
    rw [← h1, ← h2, ← h3]
    exact hinv
  | cons c cs ih =>
    intro idx ws lw lwi bp bpi result bp2 bpi2 result2 hinv heq
    simp only [scanLoop] at heq
    refine ih (idx + 1) (ws + 1) _ _ _ _ _ bp2 bpi2 result2 ?_ heq
    exact breakAux_shape text opts iF iR _ _ _ _ _ _ bp bpi result _ _ _ hinv rfl

/-- For a line containing at least one non-whitespace character,
`formatCore` produces a non-empty result whose first line carries the
first-line indent and whose later lines carry the rest indent, each a
`force_width` of indent-plus-trimmed-fragment. -/
theorem formatCore_shape (text : List Char) (opts : FmtOpts) (iF iR : List Char)
    (iwF iwB : Nat) (hnb : ∃ c ∈ text, rustIsWhitespace c = false) :
    ∃ hd tl, formatCore text opts iF iR iwF iwB = hd :: tl ∧
      builtLine iF opts.w opts hd ∧ ∀ l ∈ tl, builtLine iR opts.w opts l := by
  simp only [formatCore]
  rcases hsc : scanLoop text opts iF iR iwF iwB text 0 0 0 0 0 0 [] with ⟨bp, bpi, res0⟩
  have hinv : shapeInv iF iR opts bp bpi res0 :=
    scanLoop_shape text opts iF iR iwF iwB text 0 0 0 0 0 0 [] bp bpi res0
      ⟨fun _ => ⟨rfl, rfl⟩, fun hne => absurd rfl hne⟩ hsc
  by_cases hbp : bp = 0
  · obtain ⟨hbpi, hres⟩ := hinv.1 hbp
    subst hbp
    subst hbpi
    subst hres
    have hchunk : (trimStart (text.drop 0)).length > 0 := by
      rw [List.drop_zero]
      exact List.length_pos.mpr (trimStart_ne_nil text hnb)
    rw [if_pos hchunk]
    refine ⟨⟨force_width (iF ++ trimStart (text.drop 0)) opts.w, opts⟩, [], ?_, ?_, by simp⟩
    · rw [if_neg (by simp)]
      simp
    · exact ⟨trimStart (text.drop 0), noLeadWs_trimStart _, rfl⟩
  · obtain ⟨hd, tl, hres, hhd, htl⟩ := hinv.2 hbp
    subst hres
    by_cases hchunk : (trimStart (text.drop bpi)).length > 0
    · rw [if_pos hchunk, if_neg hbp, if_neg (by simp)]
      refine ⟨hd, tl ++ [⟨force_width (iR ++ trimStart (text.drop bpi)) opts.w, opts⟩],
        by simp, hhd, ?_⟩
      intro l hl
      rcases List.mem_append.mp hl with h1 | h2
      · exact htl l h1
      · simp only [List.mem_singleton] at h2
        exact ⟨trimStart (text.drop bpi), noLeadWs_trimStart _, by rw [h2]⟩
    · rw [if_neg hchunk, if_neg (by simp)]
      exact ⟨hd, tl, rfl, hhd, htl⟩

/-- Claim C4 (counterexample): a blank input line with negative indent of
magnitude 2 produces a single line whose text is empty — not prefixed with
2 spaces — because the degenerate branch of `format` skips indentation and
padding. -/
theorem format_indent_empty_line_cex :
    format [] ⟨10, -2⟩ = some [⟨[], ⟨10, -2⟩⟩] ∧
    ¬(List.take 2 ([] : List Char) = List.replicate 2 ' ') :=
  ⟨by decide, by decide⟩

/-- Claim C4 (amended): for an input line containing at least one
non-whitespace character and an indent magnitude `0 < m ≤ w`: with a
negative indent only the first produced line is prefixed with `m` spaces
(its content narrowed to the remaining `w − m` bytes of its exactly-`w`
byte text), and every later line is full width and unprefixed (all spaces
or starting with a non-whitespace character); with a positive indent the
roles are exactly swapped. -/
theorem format_indent_modes (text : List Char) (w m : Nat) (hm : 0 < m)
    (hmw : m ≤ w) (hnb : ∃ c ∈ text, rustIsWhitespace c = false)
    (rneg rpos : List ScreenLine)
    (hneg : format text ⟨w, -(m : Int)⟩ = some rneg)
    (hpos : format text ⟨w, (m : Int)⟩ = some rpos) :
    (∃ hd tl, rneg = hd :: tl ∧
      hd.text.take m = List.replicate m ' ' ∧ byteLen hd.text = w ∧
      ∀ l ∈ tl, byteLen l.text = w ∧
        (l.text = List.replicate w ' ' ∨
         ∃ c cs, l.text = c :: cs ∧ rustIsWhitespace c = false)) ∧
    (∃ hd tl, rpos = hd :: tl ∧
      byteLen hd.text = w ∧
      (hd.text = List.replicate w ' ' ∨
       ∃ c cs, hd.text = c :: cs ∧ rustIsWhitespace c = false) ∧
      ∀ l ∈ tl, l.text.take m = List.replicate m ' ' ∧ byteLen l.text = w) := by
  constructor
  · have hlt : -(m : Int) < 0 := by omega
    have hNA : (-(m : Int)).natAbs = m := by simp
    simp only [format, hNA, if_pos hlt, if_neg (Nat.not_lt.mpr hmw)] at hneg
    have hr := Option.some.inj hneg
    obtain ⟨hd, tl, hfc, hhd, htl⟩ := formatCore_shape text ⟨w, -(m : Int)⟩
      (List.replicate m ' ') [] (w - m) w hnb
    rw [hfc] at hr
    refine ⟨hd, tl, hr.symm, ?_, ?_, ?_⟩
    · obtain ⟨t, hnw, hhd2⟩ := hhd
      rw [hhd2]
      exact force_width_take_spaces m w hmw t
    · obtain ⟨t, hnw, hhd2⟩ := hhd
      rw [hhd2]
      exact force_width_byteLen _ w
    · intro l hl
      obtain ⟨u, hnwu, hl2⟩ := htl l hl
      rw [hl2]
      refine ⟨force_width_byteLen _ w, ?_⟩
      have hu := force_width_head u w hnwu
      simpa using hu
  · have hge : ¬((m : Int) < 0) := by omega
    have hTN : ((m : Int)).toNat = m := by simp
    simp only [format, hTN, if_neg hge, if_neg (Nat.not_lt.mpr hmw)] at hpos
    have hr := Option.some.inj hpos
    obtain ⟨hd, tl, hfc, hhd, htl⟩ := formatCore_shape text ⟨w, (m : Int)⟩
      [] (List.replicate m ' ') w (w - m) hnb
    rw [hfc] at hr
    refine ⟨hd, tl, hr.symm, ?_, ?_, ?_⟩
    · obtain ⟨t, hnw, hhd2⟩ := hhd
      rw [hhd2]
      exact force_width_byteLen _ w
    · obtain ⟨t, hnw, hhd2⟩ := hhd
      rw [hhd2]
      have ht := force_width_head t w hnw
      simpa using ht
    · intro l hl
      obtain ⟨u, hnwu, hl2⟩ := htl l hl
      rw [hl2]
      exact ⟨force_width_take_spaces m w hmw u, force_width_byteLen _ w⟩

/-- Witness for `format_indent_modes` on the line `"ab cd"` at width 4,
indent magnitude 1: negative indent gives `" ab "` then `"cd  "`; positive
indent gives `"ab  "` then `" cd "`. -/
theorem format_indent_modes_witness :
    (∃ hd tl, ([⟨[' ', 'a', 'b', ' '], ⟨4, -(1 : Int)⟩⟩,
        ⟨['c', 'd', ' ', ' '], ⟨4, -(1 : Int)⟩⟩] : List ScreenLine) = hd :: tl ∧
      hd.text.take 1 = List.replicate 1 ' ' ∧ byteLen hd.text = 4 ∧
      ∀ l ∈ tl, byteLen l.text = 4 ∧
        (l.text = List.replicate 4 ' ' ∨
         ∃ c cs, l.text = c :: cs ∧ rustIsWhitespace c = false)) ∧
    (∃ hd tl, ([⟨['a', 'b', ' ', ' '], ⟨4, (1 : Int)⟩⟩,
        ⟨[' ', 'c', 'd', ' '], ⟨4, (1 : Int)⟩⟩] : List ScreenLine) = hd :: tl ∧
      byteLen hd.text = 4 ∧
      (hd.text = List.replicate 4 ' ' ∨
       ∃ c cs, hd.text = c :: cs ∧ rustIsWhitespace c = false) ∧
      ∀ l ∈ tl, l.text.take 1 = List.replicate 1 ' ' ∧ byteLen l.text = 4) :=
  format_indent_modes ['a', 'b', ' ', 'c', 'd'] 4 1 (by decide) (by decide)
    ⟨'a', by decide, by decide⟩
    [⟨[' ', 'a', 'b', ' '], ⟨4, -(1 : Int)⟩⟩, ⟨['c', 'd', ' ', ' '], ⟨4, -(1 : Int)⟩⟩]
    [⟨['a', 'b', ' ', ' '], ⟨4, (1 : Int)⟩⟩, ⟨[' ', 'c', 'd', ' '], ⟨4, (1 : Int)⟩⟩]
    (by decide) (by decide)
